import Mathlib

/-!
Verification of the Rag_LLM document pipeline.

The development shallowly embeds the repository's Python sources:

* `src/utils/chunker.py` — text cleaning (`clean_text`) and the sliding-window
  chunker (`chunker`), modelled over `List Char` with the `while` loop as a
  fuel-indexed recursion;
* `src/service/document_service.py` — `DocumentService`'s upload, search, get
  and delete operations, with exceptions as an explicit error type and the
  Qdrant vector store as an explicit in-memory state;
* `src/controller/document_controller.py` — the HTTP status code each
  endpoint's exception handlers assign to each domain error;
* `src/repository/document_vector_repository.py` — filter construction and
  the point-level operations the service issues.

External effects (file reading, the sentence-embedding model, Qdrant's
network client) are inputs: extraction outcomes, embedding outcomes and
similarity scores are parameters of the embedded operations.  Embedding
vectors are carried as `List Int`; only their identity and length matter to
the code.  Exception message strings are elided: errors are identified by
their class, which is all the layers dispatch on.
-/

/-- Python text is modelled as a list of unicode code points. -/
abbrev Str := List Char

/-! ## `src/utils/chunker.py` -/

/-- The characters Python's `str.strip`/`str.split` treat as whitespace
(the unicode whitespace code points). -/
def isPyWs (c : Char) : Bool :=
  decide (c.toNat ∈ [9, 10, 11, 12, 13, 28, 29, 30, 31, 32, 133, 160, 5760,
    8192, 8193, 8194, 8195, 8196, 8197, 8198, 8199, 8200, 8201, 8202,
    8232, 8233, 8239, 8287, 12288])

/-- Printable ASCII: the regex class `[\x20-\x7E]`. -/
def printableAscii (c : Char) : Bool :=
  decide (32 ≤ c.toNat ∧ c.toNat ≤ 126)

/-- A character matched by `[^\x20-\x7E\n]`, removed by `clean_text`. -/
def badChar (c : Char) : Bool :=
  !(printableAscii c || c == '\n')

/-- A space character, the class matched by `" {2,}"`. -/
def spChar (c : Char) : Bool := c == ' '

/-- A newline character, the class matched by `"\n{2,}"`. -/
def nlChar (c : Char) : Bool := c == '\n'

/-- The scan underlying `re.sub` with a pattern matching maximal nonempty
runs of characters satisfying `p`, replacing each run with the single
character `r`: `inRun` records whether the previous character belonged to
the run currently being replaced. -/
def subRunsGo (p : Char → Bool) (r : Char) : Bool → Str → Str
  | _, [] => []
  | inRun, c :: cs =>
    if p c then
      if inRun then subRunsGo p r true cs
      else r :: subRunsGo p r true cs
    else c :: subRunsGo p r false cs

/-- `re.sub` with a pattern matching maximal nonempty runs of characters
satisfying `p`, replacing each run with the single character `r`.  This is
exactly `re.sub(r"X+", r, ·)`; for `clean_text`'s `" {2,}"` and `"\n{2,}"`
patterns the replacement character equals the run character, so replacing
runs of length ≥ 2 coincides with replacing runs of length ≥ 1. -/
def subRuns (p : Char → Bool) (r : Char) (l : Str) : Str :=
  subRunsGo p r false l

/-- Python `str.strip()`: drop whitespace from both ends. -/
def pyStrip (l : Str) : Str :=
  ((l.dropWhile isPyWs).reverse.dropWhile isPyWs).reverse

/-- `text.replace("\xa0", " ")`, the first line of `clean_text`. -/
def replaceNbsp (l : Str) : Str :=
  l.map (fun c => if c.toNat = 160 then ' ' else c)

/-- `clean_text` from `src/utils/chunker.py`: replace `\xa0` by a space,
collapse runs of non-printable characters to one space, collapse runs of
spaces, collapse runs of newlines, and strip the ends. -/
def clean_text (l : Str) : Str :=
  pyStrip (subRuns nlChar '\n' (subRuns spChar ' ' (subRuns badChar ' ' (replaceNbsp l))))

/-- The scan underlying Python `str.split()`: `cur` accumulates the current
word in reverse; a whitespace character or the end of the string closes the
word (empty words are discarded). -/
def pySplitGo : Str → Str → List Str
  | cur, [] => if cur = [] then [] else [cur.reverse]
  | cur, c :: cs =>
    if isPyWs c then
      if cur = [] then pySplitGo [] cs
      else cur.reverse :: pySplitGo [] cs
    else pySplitGo (c :: cur) cs

/-- Python `str.split()` (no separator): split on runs of whitespace,
discarding empty words. -/
def pySplit (l : Str) : List Str :=
  pySplitGo [] l

/-- The token list `chunker` slides its window over. -/
def tokens (text : Str) : List Str :=
  pySplit (clean_text text)

/-- The `while` loop of `chunker`, with the iteration count made explicit as
fuel: one unit of fuel is spent per iteration, `none` means the loop did not
finish within the given fuel.  `start` and the accumulated `chunks` list are
the loop's mutable state; `seq[start:start+size]` is
`(seq.drop start).take size` and `" ".join` is `List.intercalate [' ']`. -/
def chunkerLoop (seq : List Str) (size overlap : Nat) :
    Nat → Nat → List Str → Option (List Str)
  | 0, _, _ => none
  | fuel + 1, start, chunks =>
    if start < seq.length then
      let chunk := (seq.drop start).take size
      let chunks := chunks ++ [List.intercalate [' '] chunk]
      if seq.length ≤ start + size then some chunks
      else chunkerLoop seq size overlap fuel (start + (size - overlap)) chunks
    else some chunks

/-- `chunker` from `src/utils/chunker.py`: clean, split, then slide the
window.  A token list of length `L` needs at most `L + 1` loop iterations
when `overlap < size`, so that much fuel is supplied; `none` therefore
means the Python loop diverges. -/
def chunker (text : Str) (size overlap : Nat) : Option (List Str) :=
  let seq := tokens text
  chunkerLoop seq size overlap (seq.length + 1) 0 []

/-- Number of windows the loop emits over a token list of length `len`,
with window step `dm1 + 1` (the step is positive exactly when
`overlap < size`, which is how every use instantiates it): one window if
the first already reaches the end, else one plus the windows over the
remaining `len - (dm1 + 1)` tokens. -/
def numChunks (size dm1 : Nat) : Nat → Nat
  | 0 => 0
  | len + 1 =>
    if len + 1 ≤ size then 1
    else 1 + numChunks size dm1 (len + 1 - (dm1 + 1))
termination_by len => len
decreasing_by
  exact Nat.sub_lt (Nat.succ_pos _) (Nat.succ_pos _)

/-- The `k`-th window's chunk text: the space-join of the tokens at
positions `k * d` through `k * d + size - 1`, truncated at the end. -/
def window (seq : List Str) (size d k : Nat) : Str :=
  List.intercalate [' '] ((seq.drop (k * d)).take size)

/-- The chunk list described by the spec: one window per index below
`numChunks`. -/
def chunkList (seq : List Str) (size overlap : Nat) : List Str :=
  (List.range (numChunks size (size - overlap - 1) seq.length)).map
    (window seq size (size - overlap))

/-! ## Exceptions (`src/exceptions/exceptions.py`) and models
(`src/models/document_model.py`) -/

/-- The domain exception classes the document pipeline raises (message
strings elided; every handler dispatches on the class alone). -/
inductive DomainError where
  | fileTypeError
  | emptyDocumentError
  | chunkingError
  | embeddingError
  | fileProcessingError
  | documentNotFoundError
  | vectorCollectionError
  | pointError
  | documentRepositoryError
deriving DecidableEq, Repr

/-- `DocumentModel`: the per-document metadata stored with every chunk. -/
structure DocumentModel where
  doc_id : Str
  user_id : Str
  filename : Str
  file_type : Str
  chunks_count : Nat
  created_at : Str
deriving DecidableEq, Repr

/-- `VectorPayload`: the payload written on each Qdrant point.
`doc_metadata = none` models an absent/empty metadata dict. -/
structure VectorPayload where
  doc_id : Str
  user_id : Str
  chunk_text : Str
  chunk_index : Nat
  filename : Str
  file_type : Str
  created_at : Str
  doc_metadata : Option DocumentModel
deriving DecidableEq, Repr

/-- An embedding vector.  The numeric values are opaque to the code, so the
float entries are carried as integers. -/
abbrev Emb := List Int

/-- A Qdrant `PointStruct`. -/
structure PointStruct where
  id : Str
  vector : Emb
  payload : VectorPayload
deriving DecidableEq, Repr

/-! ## The vector store (`src/repository/document_vector_repository.py`)

The Qdrant collection is an explicit state: its configured vector size and
its list of points.  Modelled from the spec: the invariant section fixes a
collection-wide vector size ("every chunk's embedding vector dimensionality
equals the fixed collection vector size"), so the store's upsert rejects a
batch containing a vector of any other length — the size check itself lives
in the managed database, not under `src/`. -/

structure QdrantState where
  vector_size : Nat
  points : List PointStruct
deriving DecidableEq, Repr

/-- `_ensure_collection_exists` / `create_collection`: a fresh collection
with `VectorParams(size=vector_size)` (the `VECTOR_SIZE` setting) and no
points. -/
def initialCollection (vector_size : Nat) : QdrantState :=
  { vector_size := vector_size, points := [] }

/-- A `FieldCondition(key=..., match=MatchValue(value=...))`; the service
and repository only ever filter on `user_id` and `doc_id`. -/
inductive FieldCondition where
  | userIdIs (u : Str)
  | docIdIs (d : Str)
deriving DecidableEq, Repr

/-- A `Filter(must=[...])`. -/
abbrev QFilter := List FieldCondition

/-- Whether a payload satisfies one condition. -/
def matchesCond (pl : VectorPayload) : FieldCondition → Bool
  | .userIdIs u => pl.user_id == u
  | .docIdIs d => pl.doc_id == d

/-- Whether a payload satisfies every `must` condition of a filter. -/
def matchesFilter (f : QFilter) (pl : VectorPayload) : Bool :=
  f.all (matchesCond pl)

/-- `VectorRepository.save_points` / Qdrant upsert: points whose id already
exists are replaced, new ids are appended; a batch containing a vector whose
length differs from the collection's configured size is rejected (surfaced
by the repository as `PointError`). -/
def savePoints (st : QdrantState) (pts : List PointStruct) :
    Except DomainError QdrantState :=
  if pts.all (fun p => p.vector.length == st.vector_size) then
    .ok { st with
          points := st.points.filter (fun q => !(pts.any (fun p => p.id == q.id))) ++ pts }
  else .error .pointError

/-- The filter `get_points_by_doc_id`/`delete_points_by_doc_id` build: a
`doc_id` condition always, plus a `user_id` condition only when the passed
user id is truthy (Python `if user_id:` — the empty string adds nothing). -/
def docFilter (doc_id user_id : Str) : QFilter :=
  .docIdIs doc_id :: (if user_id = [] then [] else [.userIdIs user_id])

/-- `VectorRepository.get_points_by_doc_id`: scroll (limit 1000) with the
doc/user filter and project the payloads. -/
def getPointsByDocId (st : QdrantState) (doc_id user_id : Str) : List VectorPayload :=
  ((st.points.filter (fun p => matchesFilter (docFilter doc_id user_id) p.payload)).take 1000).map
    (·.payload)

/-- `VectorRepository.delete_points_by_doc_id`: delete every point matching
the doc/user filter. -/
def deletePointsByDocId (st : QdrantState) (doc_id user_id : Str) : QdrantState :=
  { st with
    points := st.points.filter (fun p => !(matchesFilter (docFilter doc_id user_id) p.payload)) }

/-- `VectorRepository.search` / `query_points`: the points matching the
filter, ranked by the similarity `score` (an oracle for the vector
database's float scoring), truncated to `top_k`. -/
def qdrantQuery (st : QdrantState) (f : QFilter) (top_k : Nat)
    (score : PointStruct → Int) : List PointStruct :=
  (((st.points.filter (fun p => matchesFilter f p.payload))).insertionSort
    (fun p q => score q ≤ score p)).take top_k

/-! ## `src/service/document_service.py` -/

/-- A Python exception escaping `load_document`/`file.read` inside
`_process_document`, as the service's handlers distinguish them:
`ValueError` (mapped to `FileTypeError`) versus anything else (mapped to
`FileProcessingError`). -/
inductive PyExc where
  | valueError
  | otherExc
deriving DecidableEq, Repr

/-- `os.path.splitext(p)[1]`: the extension of the last path component —
the segment from its last dot, unless every character before that dot is
itself a dot (so a leading-dot name like `.bashrc` has no extension). -/
def splitextExt (p : Str) : Str :=
  let base := (p.reverse.takeWhile (fun c => c ≠ '/')).reverse
  let revBase := base.reverse
  if revBase.any (fun c => c = '.') then
    let afterDotRev := revBase.takeWhile (fun c => c ≠ '.')
    let beforeDot := (revBase.dropWhile (fun c => c ≠ '.')).drop 1
    if beforeDot.any (fun c => c ≠ '.') then '.' :: afterDotRev.reverse
    else []
  else []

/-- `ext.lower()` on the extension (ASCII lowering; the comparison set is
ASCII). -/
def extLower (p : Str) : Str :=
  (splitextExt p).map Char.toLower

/-- The supported extensions `['.txt', '.pdf', '.docx']`. -/
def allowedExtensions : List Str :=
  [['.', 't', 'x', 't'], ['.', 'p', 'd', 'f'], ['.', 'd', 'o', 'c', 'x']]

/-- `DocumentService._process_document`: extract text, reject empty text,
chunk it, drop whitespace-only chunks, embed the rest, and pair each chunk
with its embedding.  `extract` is the outcome of the temp-file write plus
`load_document`; `embedBatch` the outcome of the embedding model.  `none`
means the chunker loop diverges (settings with `overlap ≥ size`). -/
def processDocument (size overlap : Nat) (extract : Except PyExc Str)
    (embedBatch : List Str → Except Unit (List Emb)) :
    Option (Except DomainError (List (Str × Emb))) :=
  match extract with
  | .error .valueError => some (.error .fileTypeError)
  | .error .otherExc => some (.error .fileProcessingError)
  | .ok text =>
    if pyStrip text = [] then some (.error .emptyDocumentError)
    else
      match chunker text size overlap with
      | none => none
      | some chunks =>
        if chunks = [] then some (.error .chunkingError)
        else
          let chunk_texts := chunks.filter (fun c => !(pyStrip c = ([] : Str)))
          if chunk_texts = [] then some (.error .emptyDocumentError)
          else
            match embedBatch chunk_texts with
            | .error _ => some (.error .embeddingError)
            | .ok embeddings => some (.ok (chunk_texts.zip embeddings))

/-- The Qdrant point id `str(uuid5(UUID(doc_id), str(i)))`, abstracted as a
pairing of the document id and the chunk index (no claim depends on the id
format). -/
def pointId (doc_id : Str) (i : Nat) : Str :=
  doc_id ++ ('#' :: Nat.toDigits 10 i)

/-- The point-construction loop of `upload_document` (lines 63–88): one
`PointStruct` per chunk, its payload carrying the owning user, the parent
document id, the chunk's index in the sequence, and the full
`DocumentModel` metadata. -/
def buildPoints (doc_id user_id filename ext created_at : Str)
    (chunks_data : List (Str × Emb)) : List PointStruct :=
  let doc_metadata : DocumentModel :=
    { doc_id := doc_id, user_id := user_id, filename := filename,
      file_type := ext, chunks_count := chunks_data.length,
      created_at := created_at }
  chunks_data.enum.map (fun ie =>
    { id := pointId doc_id ie.1,
      vector := ie.2.2,
      payload :=
        { doc_id := doc_id, user_id := user_id, chunk_text := ie.2.1,
          chunk_index := ie.1, filename := filename, file_type := ext,
          created_at := created_at, doc_metadata := some doc_metadata } })

/-- The `except` clauses of `upload_document`: `VectorCollectionError` and
`PointError` are re-raised, every other exception is wrapped into
`DocumentRepositoryError`. -/
def wrapUploadError : DomainError → DomainError
  | .vectorCollectionError => .vectorCollectionError
  | .pointError => .pointError
  | _ => .documentRepositoryError

/-- The result dict of a successful upload. -/
structure UploadResponse where
  doc_id : Str
  filename : Str
  file_type : Str
  chunks_count : Nat
deriving DecidableEq, Repr

/-- `DocumentService.upload_document`: validate the filename extension
before touching the file content, then process, build points and save
them.  `doc_id` is the generated `uuid4` and `created_at` the
`get_utc_now()` timestamp, both external inputs; the returned state is the
store after the call (unchanged whenever an exception is raised before the
upsert).  `none` means the chunker loop diverges. -/
def upload_document (size overlap : Nat) (st : QdrantState)
    (doc_id user_id created_at : Str) (filename : Option Str)
    (extract : Except PyExc Str)
    (embedBatch : List Str → Except Unit (List Emb)) :
    Option (QdrantState × Except DomainError UploadResponse) :=
  match filename with
  | none => some (st, .error .fileTypeError)
  | some fname =>
    if extLower fname ∉ allowedExtensions then some (st, .error .fileTypeError)
    else
      match processDocument size overlap extract embedBatch with
      | none => none
      | some (.error e) => some (st, .error (wrapUploadError e))
      | some (.ok chunks_data) =>
        match savePoints st (buildPoints doc_id user_id fname (extLower fname)
            created_at chunks_data) with
        | .error e => some (st, .error e)
        | .ok st2 =>
          some (st2, .ok { doc_id := doc_id, filename := fname,
                           file_type := extLower fname,
                           chunks_count := chunks_data.length })

/-- The document dict `get_user_document` returns: the metadata plus the
sorted chunk list. -/
structure DocumentWithChunks where
  meta : DocumentModel
  chunks : List VectorPayload
deriving DecidableEq, Repr

/-- The body of `DocumentService.get_user_document` once the repository has
returned the document's chunk payloads (in whatever order the store
produced them): not-found on an empty list, else metadata from the first
chunk (reconstructed when absent) with the chunks sorted by `chunk_index`
(`sorted` is a stable sort, modelled by `List.insertionSort`). -/
def getUserDocumentFromChunks (doc_id user_id : Str)
    (chunks : List VectorPayload) : Except DomainError DocumentWithChunks :=
  match chunks with
  | [] => .error .documentNotFoundError
  | c0 :: _ =>
    let meta := c0.doc_metadata.getD
      { doc_id := doc_id, user_id := user_id, filename := c0.filename,
        file_type := c0.file_type, created_at := c0.created_at,
        chunks_count := chunks.length }
    .ok { meta := meta,
          chunks := chunks.insertionSort (fun a b => a.chunk_index ≤ b.chunk_index) }

/-- `DocumentService.get_user_document`: fetch the chunks with the
user-scoped filter, then assemble the response. -/
def get_user_document (st : QdrantState) (doc_id user_id : Str) :
    Except DomainError DocumentWithChunks :=
  getUserDocumentFromChunks doc_id user_id (getPointsByDocId st doc_id user_id)

/-- `DocumentService.delete_user_document`: look up the user-scoped chunks
first; raise not-found (leaving the store untouched) when there are none,
else delete with the same user-scoped filter. -/
def delete_user_document (st : QdrantState) (doc_id user_id : Str) :
    QdrantState × Except DomainError Unit :=
  let chunks := getPointsByDocId st doc_id user_id
  if chunks = [] then (st, .error .documentNotFoundError)
  else (deletePointsByDocId st doc_id user_id, .ok ())

/-- One row of the search response. -/
structure SearchResult where
  doc_id : Str
  filename : Str
  chunk_text : Str
  score : Int
  chunk_index : Nat
deriving DecidableEq, Repr

/-- The `Filter(must=[FieldCondition(key="user_id", ...)])` built by
`search_user_documents`. -/
def searchFilter (user_id : Str) : QFilter :=
  [.userIdIs user_id]

/-- `DocumentService.search_user_documents`: reject a blank query before
calling the embedder or the store; embed, search with the user filter,
and project payload fields.  `embed` is the embedding model's outcome
(a raised exception is caught generically and surfaced as
`DocumentRepositoryError`), `score` the store's similarity ranking. -/
def search_user_documents (st : QdrantState) (query : Str) (top_k : Nat)
    (user_id : Str) (embed : Str → Except Unit Emb)
    (score : PointStruct → Int) : Except DomainError (List SearchResult) :=
  if pyStrip query = [] then .error .emptyDocumentError
  else
    match embed query with
    | .error _ => .error .documentRepositoryError
    | .ok _ =>
      .ok ((qdrantQuery st (searchFilter user_id) top_k score).map (fun p =>
        { doc_id := p.payload.doc_id, filename := p.payload.filename,
          chunk_text := p.payload.chunk_text, score := score p,
          chunk_index := p.payload.chunk_index }))

/-! ## `src/controller/document_controller.py`: exception → status code -/

/-- The `except` chain of the upload endpoint. -/
def uploadStatus : DomainError → Nat
  | .fileTypeError => 400
  | .emptyDocumentError => 400
  | .chunkingError => 400
  | .embeddingError => 500
  | .fileProcessingError => 500
  | .vectorCollectionError => 500
  | .pointError => 500
  | .documentRepositoryError => 500
  | .documentNotFoundError => 500

/-- The `except` chain of the delete endpoint. -/
def deleteStatus : DomainError → Nat
  | .documentNotFoundError => 404
  | _ => 500

/-- The `except` chain of the search endpoint. -/
def searchStatus : DomainError → Nat
  | .emptyDocumentError => 400
  | _ => 500

/-! ## Lemmas: the chunker loop -/

/-- The loop from position `start` behaves like the loop from position 0 on
the dropped token list. -/
theorem chunkerLoop_shift (size overlap : Nat) :
    ∀ (fuel : Nat) (seq : List Str) (start : Nat) (acc : List Str),
      chunkerLoop seq size overlap fuel start acc
        = chunkerLoop (seq.drop start) size overlap fuel 0 acc := by
  intro fuel
  induction fuel with
  | zero => intro seq start acc; rfl
  | succ n ih =>
    intro seq start acc
    simp only [chunkerLoop, List.length_drop, List.drop_zero, List.drop_drop,
      Nat.zero_add, Nat.add_zero]
    simp only [show (0 < seq.length - start) ↔ (start < seq.length) by omega,
      show (seq.length - start ≤ size) ↔ (seq.length ≤ start + size) by omega]
    by_cases h1 : start < seq.length
    · rw [if_pos h1, if_pos h1]
      by_cases h2 : seq.length ≤ start + size
      · rw [if_pos h2, if_pos h2]
      · rw [if_neg h2, if_neg h2, ih seq, ih (List.drop start seq), List.drop_drop]
    · rw [if_neg h1, if_neg h1]

/-- Unfolding `chunkList` one window at a time (the non-final case). -/
theorem chunkList_step (seq : List Str) (size overlap : Nat)
    (hv : overlap < size) (h : size < seq.length) :
    chunkList seq size overlap
      = window seq size (size - overlap) 0
          :: chunkList (seq.drop (size - overlap)) size overlap := by
  have hd : size - overlap - 1 + 1 = size - overlap := by omega
  obtain ⟨L, hL⟩ : ∃ L, seq.length = L + 1 := ⟨seq.length - 1, by omega⟩
  unfold chunkList
  rw [hL, List.length_drop, hL]
  rw [show numChunks size (size - overlap - 1) (L + 1)
        = 1 + numChunks size (size - overlap - 1) (L + 1 - (size - overlap - 1 + 1)) by
      rw [numChunks]; rw [if_neg (by omega)]]
  rw [hd, Nat.add_comm 1, List.range_succ_eq_map, List.map_cons, List.map_map]
  congr 1
  apply List.map_congr_left
  intro k _
  simp only [Function.comp_apply, window, List.drop_drop, Nat.succ_mul]
  rw [Nat.add_comm]

/-- The chunker loop, started with enough fuel, returns exactly the window
list (the claim C1's characterisation), appended to the accumulator. -/
theorem chunkerLoop_eq_chunkList (size overlap : Nat) (hv : overlap < size) :
    ∀ (fuel : Nat) (seq : List Str) (acc : List Str), seq.length < fuel →
      chunkerLoop seq size overlap fuel 0 acc
        = some (acc ++ chunkList seq size overlap) := by
  intro fuel
  induction fuel with
  | zero => intro seq acc h; omega
  | succ n ih =>
    intro seq acc h
    by_cases h0 : seq.length = 0
    · simp only [chunkerLoop, h0, chunkList]
      rw [if_neg (by omega)]
      simp [numChunks]
    · simp only [chunkerLoop]
      rw [if_pos (by omega)]
      by_cases h2 : seq.length ≤ 0 + size
      · rw [if_pos h2]
        unfold chunkList
        obtain ⟨L, hL⟩ : ∃ L, seq.length = L + 1 := ⟨seq.length - 1, by omega⟩
        rw [hL]
        rw [show numChunks size (size - overlap - 1) (L + 1) = 1 by
          rw [numChunks]; rw [if_pos (by omega)]]
        simp [window, List.range_succ]
      · rw [if_neg h2]
        rw [Nat.zero_add, chunkerLoop_shift, ih (seq.drop (size - overlap)) _ (by
          rw [List.length_drop]; omega)]
        rw [chunkList_step seq size overlap hv (by omega)]
        simp [window, List.append_assoc]

/-- A nonempty token list yields at least one chunk. -/
theorem numChunks_pos (size dm1 : Nat) : ∀ len, 0 < len → 0 < numChunks size dm1 len := by
  intro len h
  obtain ⟨L, rfl⟩ : ∃ L, len = L + 1 := ⟨len - 1, by omega⟩
  rw [numChunks]
  split <;> omega

/-- Every window before the last stops strictly short of the end of the
token list ("stopping with the first window that reaches the end"). -/
theorem numChunks_earlier (size dm1 : Nat) :
    ∀ len k, k + 1 < numChunks size dm1 len → k * (dm1 + 1) + size < len := by
  intro len
  induction len using Nat.strong_induction_on with
  | _ len ih =>
    intro k hk
    match len, hk with
    | 0, hk => simp [numChunks] at hk
    | L + 1, hk =>
      rw [numChunks] at hk
      by_cases hs : L + 1 ≤ size
      · rw [if_pos hs] at hk; omega
      · rw [if_neg hs] at hk
        match k with
        | 0 => simpa using by omega
        | m + 1 =>
          have hm : m + 1 < numChunks size dm1 (L + 1 - (dm1 + 1)) := by omega
          have := ih (L + 1 - (dm1 + 1)) (by omega) m hm
          have hx : m * (dm1 + 1) + size + (dm1 + 1) < L + 1 := by omega
          calc (m + 1) * (dm1 + 1) + size
              = m * (dm1 + 1) + size + (dm1 + 1) := by ring
            _ < L + 1 := hx

/-- The last window reaches the end of the token list, provided the window
step does not exceed the window size (`overlap ≥ 0`). -/
theorem numChunks_last (size dm1 : Nat) (hd : dm1 + 1 ≤ size) :
    ∀ len, 0 < len → len ≤ (numChunks size dm1 len - 1) * (dm1 + 1) + size := by
  intro len
  induction len using Nat.strong_induction_on with
  | _ len ih =>
    intro hpos
    obtain ⟨L, rfl⟩ : ∃ L, len = L + 1 := ⟨len - 1, by omega⟩
    rw [numChunks]
    by_cases hs : L + 1 ≤ size
    · rw [if_pos hs]; simpa using hs
    · rw [if_neg hs]
      have hlen' : 0 < L + 1 - (dm1 + 1) := by omega
      have hrec := ih (L + 1 - (dm1 + 1)) (by omega) hlen'
      have hN : 0 < numChunks size dm1 (L + 1 - (dm1 + 1)) :=
        numChunks_pos size dm1 _ hlen'
      obtain ⟨M, hM⟩ : ∃ M, numChunks size dm1 (L + 1 - (dm1 + 1)) = M + 1 :=
        ⟨numChunks size dm1 (L + 1 - (dm1 + 1)) - 1, by omega⟩
      rw [hM] at hrec ⊢
      have h1 : 1 + (M + 1) - 1 = M + 1 := by omega
      have h2 : M + 1 - 1 = M := by omega
      rw [h1]
      rw [h2] at hrec
      have hexp : (M + 1) * (dm1 + 1) = M * (dm1 + 1) + (dm1 + 1) := by ring
      omega

/-- Every token position is covered by some emitted window. -/
theorem window_coverage (size overlap len : Nat) (hs : 0 < size)
    (hv : overlap < size) (i : Nat) (hi : i < len) :
    ∃ k, k < numChunks size (size - overlap - 1) len ∧
      k * (size - overlap) ≤ i ∧ i < k * (size - overlap) + size := by
  set d := size - overlap with hdd
  have hd1 : 0 < d := by omega
  have hdm : size - overlap - 1 + 1 = d := by omega
  have hds : d ≤ size := by omega
  have hN : 0 < numChunks size (size - overlap - 1) len :=
    numChunks_pos _ _ len (by omega)
  set N := numChunks size (size - overlap - 1) len with hNN
  rcases le_or_lt (i / d) (N - 1) with h | h
  · refine ⟨i / d, by omega, ?_, ?_⟩
    · exact Nat.div_mul_le_self i d
    · have hmod := Nat.div_add_mod i d
      have hlt := Nat.mod_lt i hd1
      have : i < i / d * d + d := by
        have := Nat.mul_comm d (i / d)
        omega
      omega
  · refine ⟨N - 1, by omega, ?_, ?_⟩
    · have hle : N - 1 ≤ i / d := by omega
      calc (N - 1) * d ≤ i / d * d := Nat.mul_le_mul_right d hle
        _ ≤ i := Nat.div_mul_le_self i d
    · have := numChunks_last size (size - overlap - 1) (by omega) len (by omega)
      rw [hdm, ← hNN] at this
      omega

/-- Two consecutive emitted windows overlap in exactly `overlap` token
positions, whenever the second is not past the last window. -/
theorem window_overlap (size overlap len : Nat) (hs : 0 < size)
    (hv : overlap < size) (k : Nat)
    (hk : k + 1 < numChunks size (size - overlap - 1) len) :
    ((Finset.range len).filter (fun i =>
        (k * (size - overlap) ≤ i ∧ i < k * (size - overlap) + size) ∧
        ((k + 1) * (size - overlap) ≤ i ∧ i < (k + 1) * (size - overlap) + size))).card
      = overlap := by
  have hlast := numChunks_earlier size (size - overlap - 1) len k hk
  rw [show size - overlap - 1 + 1 = size - overlap by omega] at hlast
  have hexp : (k + 1) * (size - overlap) = k * (size - overlap) + (size - overlap) := by ring
  rw [show ((Finset.range len).filter (fun i =>
        (k * (size - overlap) ≤ i ∧ i < k * (size - overlap) + size) ∧
        ((k + 1) * (size - overlap) ≤ i ∧ i < (k + 1) * (size - overlap) + size)))
      = Finset.Ico ((k + 1) * (size - overlap)) (k * (size - overlap) + size) by
    ext i
    simp only [Finset.mem_filter, Finset.mem_range, Finset.mem_Ico]
    constructor
    · rintro ⟨-, ⟨-, h2⟩, ⟨h3, -⟩⟩
      exact ⟨h3, h2⟩
    · rintro ⟨h1, h2⟩
      omega]
  rw [Nat.card_Ico]
  omega

/-- C1: for every input text, chunk size `size > 0` and overlap
`overlap < size`, `chunker` cleans the text, splits it on whitespace into
tokens, and returns the list of chunks whose `k`-th element is the
space-join of the tokens at positions `k*(size-overlap)` through
`k*(size-overlap)+size-1` (truncated at the end of the token list),
stopping with the first window that reaches the end (all earlier windows
stop strictly short of the end, the last one reaches it); consequently
every token position lies in at least one window, and consecutive windows
share exactly `overlap` token positions. -/
theorem chunker_sliding_windows (text : Str) (size overlap : Nat)
    (hs : 0 < size) (hv : overlap < size) :
    chunker text size overlap = some (chunkList (tokens text) size overlap)
    ∧ (∀ k, k + 1 < numChunks size (size - overlap - 1) (tokens text).length →
        k * (size - overlap) + size < (tokens text).length)
    ∧ (0 < (tokens text).length →
        (tokens text).length ≤
          (numChunks size (size - overlap - 1) (tokens text).length - 1)
            * (size - overlap) + size)
    ∧ (∀ i, i < (tokens text).length →
        ∃ k, k < numChunks size (size - overlap - 1) (tokens text).length ∧
          k * (size - overlap) ≤ i ∧ i < k * (size - overlap) + size)
    ∧ (∀ k, k + 1 < numChunks size (size - overlap - 1) (tokens text).length →
        ((Finset.range (tokens text).length).filter (fun i =>
            (k * (size - overlap) ≤ i ∧ i < k * (size - overlap) + size) ∧
            ((k + 1) * (size - overlap) ≤ i ∧
              i < (k + 1) * (size - overlap) + size))).card = overlap) := by
  refine ⟨?_, ?_, ?_, ?_, ?_⟩
  · unfold chunker
    rw [chunkerLoop_eq_chunkList size overlap hv _ (tokens text) [] (Nat.lt_succ_self _)]
    rw [List.nil_append]
  · intro k hk
    have := numChunks_earlier size (size - overlap - 1) (tokens text).length k hk
    rwa [show size - overlap - 1 + 1 = size - overlap by omega] at this
  · intro hpos
    have := numChunks_last size (size - overlap - 1) (by omega) (tokens text).length hpos
    rwa [show size - overlap - 1 + 1 = size - overlap by omega] at this
  · exact window_coverage size overlap (tokens text).length hs hv
  · exact window_overlap size overlap (tokens text).length hs hv

/-- Witness for C1 at a concrete five-token text, size 2, overlap 1. -/
theorem chunker_sliding_windows_witness :
    0 < 2 ∧ 1 < 2 ∧
      chunker ['a', ' ', 'b', ' ', 'c'] 2 1
        = some (chunkList (tokens ['a', ' ', 'b', ' ', 'c']) 2 1) :=
  ⟨by decide, by decide, (chunker_sliding_windows ['a', ' ', 'b', ' ', 'c'] 2 1
    (by decide) (by decide)).1⟩

/-- With `overlap = size` the loop's start position never advances: on any
token list it has not finished within any amount of fuel. -/
theorem chunkerLoop_no_progress :
    ∀ (fuel : Nat) (acc : List Str),
      chunkerLoop [['a'], ['b']] 1 1 fuel 0 acc = none := by
  intro fuel
  induction fuel with
  | zero => intro acc; rfl
  | succ n ih =>
    intro acc
    simp only [chunkerLoop]
    rw [if_pos (by simp), if_neg (by simp)]
    exact ih _

/-- C8: under the precondition `0 < size` and `overlap < size` the chunker
loop terminates on every input (within `tokens.length + 1` iterations, each
one advancing the start by `size - overlap ≥ 1` or breaking); without the
precondition it need not terminate — with `size = overlap = 1` on a
two-token list no amount of fuel finishes the loop. -/
theorem chunker_terminates :
    (∀ (text : Str) (size overlap : Nat), 0 < size → overlap < size →
      (chunker text size overlap).isSome = true)
    ∧ (∀ fuel, chunkerLoop [['a'], ['b']] 1 1 fuel 0 [] = none) := by
  constructor
  · intro text size overlap hs hv
    unfold chunker
    rw [chunkerLoop_eq_chunkList size overlap hv _ (tokens text) [] (Nat.lt_succ_self _)]
    rfl
  · intro fuel
    exact chunkerLoop_no_progress fuel []

/-- Witness for C8: termination at a concrete input, divergence at fuel 5. -/
theorem chunker_terminates_witness :
    (chunker ['a', ' ', 'b'] 3 1).isSome = true
    ∧ chunkerLoop [['a'], ['b']] 1 1 5 0 [] = none :=
  ⟨chunker_terminates.1 ['a', ' ', 'b'] 3 1 (by decide) (by decide),
    chunker_terminates.2 5⟩

/-! ## Lemmas: `clean_text` -/

/-- Characters of `subRunsGo p r b l` never satisfy `p`, except possibly
the inserted replacement `r`. -/
theorem subRunsGo_not_p (p : Char → Bool) (r : Char) :
    ∀ (l : Str) (b : Bool), ∀ c ∈ subRunsGo p r b l, p c = false ∨ c = r := by
  intro l
  induction l with
  | nil => intro b c hc; simp [subRunsGo] at hc
  | cons a as ih =>
    intro b c hc
    rw [subRunsGo] at hc
    by_cases hpa : p a
    · rw [if_pos hpa] at hc
      cases b with
      | true => exact ih true c (by simpa using hc)
      | false =>
        rcases List.mem_cons.mp (by simpa using hc) with rfl | hc'
        · exact Or.inr rfl
        · exact ih true c hc'
    · rw [if_neg hpa] at hc
      rcases List.mem_cons.mp hc with rfl | hc'
      · exact Or.inl (by simpa using hpa)
      · exact ih false c hc'

/-- Characters of `subRunsGo p r b l` come from `l`, except possibly the
inserted replacement `r`. -/
theorem subRunsGo_mem_of (p : Char → Bool) (r : Char) :
    ∀ (l : Str) (b : Bool), ∀ c ∈ subRunsGo p r b l, c ∈ l ∨ c = r := by
  intro l
  induction l with
  | nil => intro b c hc; simp [subRunsGo] at hc
  | cons a as ih =>
    intro b c hc
    rw [subRunsGo] at hc
    by_cases hpa : p a
    · rw [if_pos hpa] at hc
      cases b with
      | true =>
        rcases ih true c (by simpa using hc) with h | h
        · exact Or.inl (List.mem_cons_of_mem a h)
        · exact Or.inr h
      | false =>
        rcases List.mem_cons.mp (by simpa using hc) with rfl | hc'
        · exact Or.inr rfl
        · rcases ih true c hc' with h | h
          · exact Or.inl (List.mem_cons_of_mem a h)
          · exact Or.inr h
    · rw [if_neg hpa] at hc
      rcases List.mem_cons.mp hc with rfl | hc'
      · exact Or.inl (List.mem_cons_self c as)
      · rcases ih false c hc' with h | h
        · exact Or.inl (List.mem_cons_of_mem a h)
        · exact Or.inr h

/-- After a run has been replaced, the next emitted character does not
satisfy `p`. -/
theorem subRunsGo_true_head (p : Char → Bool) (r : Char) :
    ∀ (l : Str) (c : Char), (subRunsGo p r true l).head? = some c →
      p c = false := by
  intro l
  induction l with
  | nil => intro c hc; simp [subRunsGo] at hc
  | cons a as ih =>
    intro c hc
    rw [subRunsGo] at hc
    by_cases hpa : p a
    · rw [if_pos hpa] at hc
      exact ih c (by simpa using hc)
    · rw [if_neg hpa] at hc
      rw [show c = a by simpa using hc.symm]
      simpa using hpa

/-- Outside a run, the first emitted character is the replacement or the
original head. -/
theorem subRunsGo_false_head_cases (p : Char → Bool) (r : Char) (l : Str) :
    (subRunsGo p r false l).head? = none
      ∨ (subRunsGo p r false l).head? = some r
      ∨ (subRunsGo p r false l).head? = l.head? := by
  match l with
  | [] => exact Or.inl (by simp [subRunsGo])
  | a :: as =>
    rw [subRunsGo]
    by_cases hpa : p a
    · rw [if_pos hpa]; exact Or.inr (Or.inl rfl)
    · rw [if_neg hpa]; exact Or.inr (Or.inr rfl)

/-- The output of `subRuns p r` has no two adjacent characters satisfying
`p`: each maximal run was collapsed to a single character. -/
theorem subRunsGo_chain'_self (p : Char → Bool) (r : Char) :
    ∀ (l : Str) (b : Bool),
      (subRunsGo p r b l).Chain' (fun a b => p a = false ∨ p b = false) := by
  intro l
  induction l with
  | nil => intro b; simp [subRunsGo]
  | cons a as ih =>
    intro b
    rw [subRunsGo]
    by_cases hpa : p a
    · rw [if_pos hpa]
      cases b with
      | true => exact ih true
      | false =>
        simp only [Bool.false_eq_true, if_false]
        rw [List.chain'_cons']
        refine ⟨?_, ih true⟩
        intro y hy
        exact Or.inr (subRunsGo_true_head p r as y (Option.mem_def.mp hy))
    · rw [if_neg hpa]
      rw [List.chain'_cons']
      refine ⟨fun y _ => Or.inl (by simpa using hpa), ih false⟩

/-- `subRuns p r` preserves the absence of adjacent `q`-pairs, provided the
replacement `r` does not satisfy `q`. -/
theorem subRunsGo_chain'_pres (p q : Char → Bool) (r : Char) (hqr : q r = false) :
    ∀ (l : Str) (b : Bool),
      l.Chain' (fun a b => q a = false ∨ q b = false) →
      (subRunsGo p r b l).Chain' (fun a b => q a = false ∨ q b = false) := by
  intro l
  induction l with
  | nil => intro b _; simp [subRunsGo]
  | cons a as ih =>
    intro b hch
    have htail := (List.chain'_cons'.mp hch).2
    rw [subRunsGo]
    by_cases hpa : p a
    · rw [if_pos hpa]
      cases b with
      | true => exact ih true htail
      | false =>
        simp only [Bool.false_eq_true, if_false]
        rw [List.chain'_cons']
        exact ⟨fun y _ => Or.inl hqr, ih true htail⟩
    · rw [if_neg hpa]
      rw [List.chain'_cons']
      refine ⟨?_, ih false htail⟩
      intro y hy
      rcases subRunsGo_false_head_cases p r as with hc | hc | hc
      · rw [hc] at hy; simp at hy
      · rw [hc] at hy
        rw [show y = r from by simpa using (Option.mem_def.mp hy).symm]
        exact Or.inr hqr
      · rw [hc] at hy
        exact (List.chain'_cons'.mp hch).1 y hy

/-- The head of a `dropWhile p` result does not satisfy `p`. -/
theorem head?_dropWhile_false (p : Char → Bool) (l : Str) :
    ∀ c, (l.dropWhile p).head? = some c → p c = false := by
  intro c hc
  have h := List.head?_dropWhile_not p l
  rw [hc] at h
  exact h

/-- `Chain'` survives `dropWhile`. -/
theorem chain'_dropWhile {R : Char → Char → Prop} (p : Char → Bool) (l : Str)
    (h : l.Chain' R) : (l.dropWhile p).Chain' R := by
  obtain ⟨t, ht⟩ := List.dropWhile_suffix p (l := l)
  rw [← ht] at h
  exact (List.chain'_append.mp h).2.1

/-- `Chain'` survives `pyStrip` (an infix of the original). -/
theorem chain'_pyStrip {R : Char → Char → Prop} (l : Str)
    (h : l.Chain' R) : (pyStrip l).Chain' R := by
  unfold pyStrip
  rw [List.chain'_reverse]
  apply chain'_dropWhile
  rw [List.chain'_reverse]
  exact chain'_dropWhile isPyWs l h

/-- Characters of `pyStrip l` come from `l`. -/
theorem mem_pyStrip {c : Char} {l : Str} (h : c ∈ pyStrip l) : c ∈ l := by
  unfold pyStrip at h
  rw [List.mem_reverse] at h
  have h1 : c ∈ (l.dropWhile isPyWs).reverse :=
    List.IsSuffix.mem h (List.dropWhile_suffix _)
  rw [List.mem_reverse] at h1
  exact List.IsSuffix.mem h1 (List.dropWhile_suffix _)

/-- The first character of a stripped string is not whitespace. -/
theorem pyStrip_head? (l : Str) :
    ∀ c, (pyStrip l).head? = some c → isPyWs c = false := by
  intro c hc
  unfold pyStrip at hc
  rw [List.head?_reverse] at hc
  obtain ⟨t, ht⟩ := List.dropWhile_suffix isPyWs (l := (l.dropWhile isPyWs).reverse)
  have h2 : (l.dropWhile isPyWs).reverse.getLast? = some c := by
    rw [← ht, List.getLast?_append, hc]
    rfl
  rw [List.getLast?_reverse] at h2
  exact head?_dropWhile_false isPyWs l c h2

/-- The last character of a stripped string is not whitespace. -/
theorem pyStrip_getLast? (l : Str) :
    ∀ c, (pyStrip l).getLast? = some c → isPyWs c = false := by
  intro c hc
  unfold pyStrip at hc
  rw [List.getLast?_reverse] at hc
  exact head?_dropWhile_false isPyWs _ c hc

/-- A pointwise-identity map is the identity. -/
theorem map_id_of_mem {f : Char → Char} :
    ∀ (l : Str), (∀ c ∈ l, f c = c) → l.map f = l := by
  intro l h
  induction l with
  | nil => rfl
  | cons a as ih =>
    rw [List.map_cons, h a (List.mem_cons_self a as),
      ih (fun c hc => h c (List.mem_cons_of_mem a hc))]

/-- With no `p`-characters at all, `subRuns` is the identity. -/
theorem subRunsGo_id_of_none (p : Char → Bool) (r : Char) :
    ∀ (l : Str), (∀ c ∈ l, p c = false) → subRunsGo p r false l = l := by
  intro l
  induction l with
  | nil => intro _; simp [subRunsGo]
  | cons a as ih =>
    intro h
    rw [subRunsGo, if_neg (by simp [h a (List.mem_cons_self a as)]),
      ih (fun c hc => h c (List.mem_cons_of_mem a hc))]

/-- Entering a run makes no difference when the head is not a `p`-character. -/
theorem subRunsGo_true_of_head_not (p : Char → Bool) (r : Char) (l : Str)
    (h : ∀ c, l.head? = some c → p c = false) :
    subRunsGo p r true l = subRunsGo p r false l := by
  match l with
  | [] => rfl
  | a :: as =>
    rw [subRunsGo, subRunsGo, if_neg (by simp [h a rfl]), if_neg (by simp [h a rfl])]

/-- With every `p`-character isolated and equal to the replacement,
`subRuns` is the identity. -/
theorem subRunsGo_id_of_isolated (p : Char → Bool) (r : Char) :
    ∀ (l : Str), l.Chain' (fun a b => p a = false ∨ p b = false) →
      (∀ c ∈ l, p c = true → c = r) → subRunsGo p r false l = l := by
  intro l
  induction l with
  | nil => intro _ _; simp [subRunsGo]
  | cons a as ih =>
    intro hch hall
    have htail := (List.chain'_cons'.mp hch).2
    have halltail := fun c hc hp => hall c (List.mem_cons_of_mem a hc) hp
    by_cases hpa : p a
    · rw [subRunsGo, if_pos hpa]
      simp only [Bool.false_eq_true, if_false]
      have hhead : ∀ c, as.head? = some c → p c = false := by
        intro c hc
        rcases (List.chain'_cons'.mp hch).1 c (Option.mem_def.mpr hc) with h | h
        · exact absurd h (by simpa using hpa)
        · exact h
      rw [subRunsGo_true_of_head_not p r as hhead, ih htail halltail,
        show a = r from hall a (List.mem_cons_self a as) (by simpa using hpa)]
    · rw [subRunsGo, if_neg hpa, ih htail halltail]

/-- A list whose head fails `p` is untouched by `dropWhile`. -/
theorem dropWhile_id_of_head (p : Char → Bool) (l : Str)
    (h : ∀ c, l.head? = some c → p c = false) : l.dropWhile p = l := by
  match l with
  | [] => rfl
  | a :: as => exact List.dropWhile_cons_of_neg (by simp [h a rfl])

/-- A string with non-whitespace ends is untouched by `strip`. -/
theorem pyStrip_id (l : Str)
    (h1 : ∀ c, l.head? = some c → isPyWs c = false)
    (h2 : ∀ c, l.getLast? = some c → isPyWs c = false) : pyStrip l = l := by
  unfold pyStrip
  rw [dropWhile_id_of_head isPyWs l h1]
  rw [dropWhile_id_of_head isPyWs l.reverse
    (fun c hc => h2 c (by rwa [List.head?_reverse] at hc))]
  exact List.reverse_reverse l

/-- A character surviving `clean_text` is printable ASCII or a newline. -/
theorem badChar_false_elim {c : Char} (hb : badChar c = false) :
    printableAscii c = true ∨ c = '\n' := by
  unfold badChar at hb
  cases hpc : printableAscii c with
  | true => exact Or.inl rfl
  | false =>
    cases hnc : c == '\n' with
    | true => exact Or.inr (by simpa using hnc)
    | false => rw [hpc, hnc] at hb; simp at hb

/-- Such a character is in particular not the non-breaking space. -/
theorem badChar_false_not_nbsp {c : Char} (hb : badChar c = false) :
    c.toNat ≠ 160 := by
  rcases badChar_false_elim hb with h | h
  · intro h160
    have := of_decide_eq_true h
    omega
  · subst h
    decide

/-- Every character of `clean_text l` survives the `[^\x20-\x7E\n]` pass. -/
theorem clean_text_badChar_false (l : Str) :
    ∀ c ∈ clean_text l, badChar c = false := by
  intro c hc
  have hc3 : c ∈ subRuns nlChar '\n'
      (subRuns spChar ' ' (subRuns badChar ' ' (replaceNbsp l))) := mem_pyStrip hc
  rcases subRunsGo_mem_of nlChar '\n' _ false c hc3 with hc2 | rfl
  · rcases subRunsGo_mem_of spChar ' ' _ false c hc2 with hc1 | rfl
    · rcases subRunsGo_not_p badChar ' ' _ false c hc1 with h | rfl
      · exact h
      · decide
    · decide
  · decide

/-- C9: `clean_text` is idempotent, and one pass already yields only
printable ASCII and newlines, with no two adjacent spaces, no two adjacent
newlines, and no leading or trailing whitespace. -/
theorem clean_text_idempotent (l : Str) :
    clean_text (clean_text l) = clean_text l
    ∧ (∀ c ∈ clean_text l, printableAscii c = true ∨ c = '\n')
    ∧ (clean_text l).Chain' (fun a b => ¬(a = ' ' ∧ b = ' '))
    ∧ (clean_text l).Chain' (fun a b => ¬(a = '\n' ∧ b = '\n'))
    ∧ (∀ c, (clean_text l).head? = some c → isPyWs c = false)
    ∧ (∀ c, (clean_text l).getLast? = some c → isPyWs c = false) := by
  have hbad := clean_text_badChar_false l
  have hsp : (clean_text l).Chain' (fun a b => spChar a = false ∨ spChar b = false) := by
    apply chain'_pyStrip
    exact subRunsGo_chain'_pres nlChar spChar '\n' (by decide) _ false
      (subRunsGo_chain'_self spChar ' ' _ false)
  have hnl : (clean_text l).Chain' (fun a b => nlChar a = false ∨ nlChar b = false) := by
    apply chain'_pyStrip
    exact subRunsGo_chain'_self nlChar '\n' _ false
  have hhead : ∀ c, (clean_text l).head? = some c → isPyWs c = false :=
    pyStrip_head? _
  have hlast : ∀ c, (clean_text l).getLast? = some c → isPyWs c = false :=
    pyStrip_getLast? _
  refine ⟨?_, ?_, ?_, ?_, hhead, hlast⟩
  · have h1 : replaceNbsp (clean_text l) = clean_text l := by
      apply map_id_of_mem
      intro c hc
      rw [if_neg (badChar_false_not_nbsp (hbad c hc))]
    have h2 : subRuns badChar ' ' (clean_text l) = clean_text l :=
      subRunsGo_id_of_none badChar ' ' _ hbad
    have h3 : subRuns spChar ' ' (clean_text l) = clean_text l := by
      apply subRunsGo_id_of_isolated spChar ' ' _ hsp
      intro c _ hcp
      simpa [spChar] using hcp
    have h4 : subRuns nlChar '\n' (clean_text l) = clean_text l := by
      apply subRunsGo_id_of_isolated nlChar '\n' _ hnl
      intro c _ hcp
      simpa [nlChar] using hcp
    have h5 : pyStrip (clean_text l) = clean_text l := pyStrip_id _ hhead hlast
    calc clean_text (clean_text l)
        = pyStrip (subRuns nlChar '\n' (subRuns spChar ' '
            (subRuns badChar ' ' (replaceNbsp (clean_text l))))) := rfl
      _ = clean_text l := by rw [h1, h2, h3, h4, h5]
  · intro c hc
    exact badChar_false_elim (hbad c hc)
  · apply hsp.imp
    rintro a b hab ⟨rfl, rfl⟩
    simp [spChar] at hab
  · apply hnl.imp
    rintro a b hab ⟨rfl, rfl⟩
    simp [nlChar] at hab

/-- Witness for C9 at a concrete messy string. -/
theorem clean_text_idempotent_witness :
    clean_text (clean_text [' ', 'a', ' ', ' ', 'b', '\n', '\n', 'c', ' '])
        = clean_text [' ', 'a', ' ', ' ', 'b', '\n', '\n', 'c', ' ']
    ∧ isPyWs 'a' = false :=
  ⟨(clean_text_idempotent [' ', 'a', ' ', ' ', 'b', '\n', '\n', 'c', ' ']).1,
    (clean_text_idempotent [' ', 'a', ' ', ' ', 'b', '\n', '\n', 'c', ' ']).2.2.2.2.1
      'a' (by decide)⟩

/-! ## The service-layer claims -/

/-- C2 (failing case): a `.txt` upload whose extracted text is a single
space raises `EmptyDocumentError` inside `_process_document`, but
`upload_document`'s catch-all wraps it into `DocumentRepositoryError`, so
the endpoint answers 500 — although the controller maps a propagated
`EmptyDocumentError` to 400. -/
theorem upload_wraps_narrow_errors :
    upload_document 2 1 (initialCollection 3) ['d'] ['u'] ['t']
        (some ['a', '.', 't', 'x', 't']) (.ok [' ']) (fun _ => .ok [])
      = some (initialCollection 3, .error .documentRepositoryError)
    ∧ uploadStatus .documentRepositoryError = 500
    ∧ uploadStatus .emptyDocumentError = 400 :=
  ⟨rfl, rfl, rfl⟩

/-- C4: an upload with a missing filename, or whose lowercased extension is
not `.txt`/`.pdf`/`.docx`, raises `FileTypeError` before reading or
processing the content — the store is untouched and the outcome is the
same for every extraction and embedding outcome — and the endpoint maps
`FileTypeError` to 400. -/
theorem upload_rejects_bad_extension (size overlap : Nat) (st : QdrantState)
    (doc_id user_id created_at : Str) (filename : Option Str)
    (extract : Except PyExc Str) (embedBatch : List Str → Except Unit (List Emb))
    (h : filename = none
      ∨ ∀ fname, filename = some fname → extLower fname ∉ allowedExtensions) :
    upload_document size overlap st doc_id user_id created_at filename
        extract embedBatch
      = some (st, .error .fileTypeError)
    ∧ uploadStatus .fileTypeError = 400 := by
  refine ⟨?_, rfl⟩
  match filename with
  | none => rfl
  | some fname =>
    rcases h with h | h
    · exact absurd h (by simp)
    · simp only [upload_document]
      rw [if_pos (h fname rfl)]

/-- Witness for C4 at a `.exe` filename. -/
theorem upload_rejects_bad_extension_witness :
    upload_document 2 1 (initialCollection 3) ['d'] ['u'] ['t']
        (some ['a', '.', 'e', 'x', 'e']) (.ok ['x']) (fun _ => .ok [])
      = some (initialCollection 3, .error .fileTypeError)
    ∧ uploadStatus .fileTypeError = 400 :=
  upload_rejects_bad_extension 2 1 (initialCollection 3) ['d'] ['u'] ['t']
    (some ['a', '.', 'e', 'x', 'e']) (.ok ['x']) (fun _ => .ok [])
    (Or.inr (fun fname hf => by cases hf; decide))

/-- C5: a blank query is rejected with `EmptyDocumentError` before the
embedder or the vector store is consulted (the outcome is the same for
every store state, embedding outcome and scoring), and the endpoint maps
it to 400. -/
theorem search_rejects_blank_query (st : QdrantState) (query : Str)
    (top_k : Nat) (user_id : Str) (embed : Str → Except Unit Emb)
    (score : PointStruct → Int) (h : pyStrip query = []) :
    search_user_documents st query top_k user_id embed score
      = .error .emptyDocumentError
    ∧ searchStatus .emptyDocumentError = 400 := by
  refine ⟨?_, rfl⟩
  simp only [search_user_documents]
  rw [if_pos h]

/-- Witness for C5 at a whitespace-only query. -/
theorem search_rejects_blank_query_witness :
    search_user_documents (initialCollection 3) [' ', '\n'] 5 ['u']
        (fun _ => .ok []) (fun _ => 0)
      = .error .emptyDocumentError
    ∧ searchStatus .emptyDocumentError = 400 :=
  search_rejects_blank_query (initialCollection 3) [' ', '\n'] 5 ['u']
    (fun _ => .ok []) (fun _ => 0) (by decide)

/-- C6: when no stored point matches both the document id and the (truthy)
requesting user id, `delete_user_document` raises `DocumentNotFoundError`
before issuing any deletion — the returned store is the unchanged input —
and the endpoint maps it to 404. -/
theorem delete_unknown_document_404 (st : QdrantState) (doc_id user_id : Str)
    (hu : user_id ≠ [])
    (h : ∀ p ∈ st.points,
      ¬(p.payload.doc_id = doc_id ∧ p.payload.user_id = user_id)) :
    delete_user_document st doc_id user_id = (st, .error .documentNotFoundError)
    ∧ deleteStatus .documentNotFoundError = 404 := by
  refine ⟨?_, rfl⟩
  have hfil : st.points.filter
      (fun p => matchesFilter (docFilter doc_id user_id) p.payload) = [] := by
    rw [List.filter_eq_nil_iff]
    intro p hp
    have hnp := h p hp
    simp only [matchesFilter, docFilter, if_neg hu, List.all_cons, List.all_nil,
      matchesCond, Bool.and_true, Bool.and_eq_true, beq_iff_eq]
    tauto
  have hchunks : getPointsByDocId st doc_id user_id = [] := by
    simp [getPointsByDocId, hfil]
  simp only [delete_user_document]
  rw [if_pos hchunks]

/-- A concrete payload owned by user `u`, used by witnesses. -/
def witnessPayload (u : Str) (i : Nat) : VectorPayload :=
  { doc_id := ['d'], user_id := u, chunk_text := ['x'], chunk_index := i,
    filename := ['f'], file_type := ['.', 't', 'x', 't'], created_at := ['t'],
    doc_metadata := none }

/-- A concrete one-point store owned by user `u`, used by witnesses. -/
def witnessStore (u : Str) : QdrantState :=
  { vector_size := 1,
    points := [{ id := ['i'], vector := [0], payload := witnessPayload u 0 }] }

/-- Witness for C6: a store holding only another user's chunk. -/
theorem delete_unknown_document_404_witness :
    delete_user_document (witnessStore ['v']) ['d'] ['u']
      = (witnessStore ['v'], .error .documentNotFoundError)
    ∧ deleteStatus .documentNotFoundError = 404 :=
  delete_unknown_document_404 (witnessStore ['v']) ['d'] ['u'] (by decide)
    (by
      intro p hp
      rcases List.mem_singleton.mp hp with rfl
      decide)

instance : IsTotal VectorPayload (fun a b => a.chunk_index ≤ b.chunk_index) :=
  ⟨fun a b => Nat.le_total a.chunk_index b.chunk_index⟩

instance : IsTrans VectorPayload (fun a b => a.chunk_index ≤ b.chunk_index) :=
  ⟨fun _ _ _ h1 h2 => Nat.le_trans h1 h2⟩

/-- C10: a successful `get_user_document` returns the chunks sorted in
nondecreasing `chunk_index` order, whatever order the store produced them
in (the chunk list is an arbitrary input here), and as a permutation of
them; the service operation is exactly this assembly applied to the
user-scoped fetch. -/
theorem get_document_chunks_sorted (doc_id user_id : Str)
    (chunks : List VectorPayload) (d : DocumentWithChunks)
    (h : getUserDocumentFromChunks doc_id user_id chunks = .ok d) :
    d.chunks.Pairwise (fun a b => a.chunk_index ≤ b.chunk_index)
    ∧ d.chunks.Perm chunks
    ∧ ∀ st : QdrantState, get_user_document st doc_id user_id
        = getUserDocumentFromChunks doc_id user_id
            (getPointsByDocId st doc_id user_id) := by
  match chunks, h with
  | c0 :: rest, h =>
    simp only [getUserDocumentFromChunks, Except.ok.injEq] at h
    subst h
    refine ⟨?_, ?_, fun st => rfl⟩
    · exact List.sorted_insertionSort (fun a b => a.chunk_index ≤ b.chunk_index)
        (c0 :: rest)
    · exact List.perm_insertionSort (fun a b => a.chunk_index ≤ b.chunk_index)
        (c0 :: rest)

/-- The metadata record reconstructed for the witness document. -/
def witnessMeta : DocumentModel :=
  { doc_id := ['d'], user_id := ['u'], filename := ['f'],
    file_type := ['.', 't', 'x', 't'], chunks_count := 2, created_at := ['t'] }

/-- Witness for C10 at a two-chunk list arriving in reversed order. -/
theorem get_document_chunks_sorted_witness :
    ([witnessPayload ['u'] 0, witnessPayload ['u'] 1]).Pairwise
        (fun a b => a.chunk_index ≤ b.chunk_index)
    ∧ ([witnessPayload ['u'] 0, witnessPayload ['u'] 1]).Perm
        [witnessPayload ['u'] 1, witnessPayload ['u'] 0] := by
  have happ := get_document_chunks_sorted ['d'] ['u']
    [witnessPayload ['u'] 1, witnessPayload ['u'] 0]
    { meta := witnessMeta,
      chunks := [witnessPayload ['u'] 0, witnessPayload ['u'] 1] }
    rfl
  exact ⟨happ.1, happ.2.1⟩

/-- A successful upsert keeps the collection's vector size and leaves all
stored vectors at that size. -/
theorem savePoints_inv (st : QdrantState) (pts : List PointStruct)
    (st2 : QdrantState) (h : savePoints st pts = .ok st2)
    (hinv : ∀ p ∈ st.points, p.vector.length = st.vector_size) :
    st2.vector_size = st.vector_size
    ∧ ∀ p ∈ st2.points, p.vector.length = st2.vector_size := by
  unfold savePoints at h
  by_cases hall : pts.all (fun p => p.vector.length == st.vector_size)
  · rw [if_pos hall] at h
    rcases Except.ok.inj h with rfl
    refine ⟨rfl, ?_⟩
    intro p hp
    rcases List.mem_append.mp hp with hold | hnew
    · exact hinv p (List.mem_of_mem_filter hold)
    · show p.vector.length = st.vector_size
      have hb := List.all_eq_true.mp hall p hnew
      simpa using hb
  · rw [if_neg hall] at h
    exact absurd h (by simp)

/-- C7: the stored-vector dimensionality invariant.  A collection is
created with the configured `VECTOR_SIZE` and no points; an upload (whose
upsert Qdrant accepts only when every batch vector has the collection's
size) preserves the invariant that every stored point's vector has exactly
the collection's configured size. -/
theorem upload_preserves_vector_size (size overlap n : Nat) (st : QdrantState)
    (doc_id user_id created_at : Str) (filename : Option Str)
    (extract : Except PyExc Str) (embedBatch : List Str → Except Unit (List Emb))
    (st' : QdrantState) (res : Except DomainError UploadResponse)
    (hinv : ∀ p ∈ st.points, p.vector.length = st.vector_size)
    (h : upload_document size overlap st doc_id user_id created_at filename
        extract embedBatch = some (st', res)) :
    (∀ p ∈ st'.points, p.vector.length = st'.vector_size)
    ∧ st'.vector_size = st.vector_size
    ∧ (initialCollection n).vector_size = n
    ∧ (initialCollection n).points = [] := by
  have hfst : ∀ (a : QdrantState) (x : Except DomainError UploadResponse),
      some (a, x) = some (st', res) → st' = a := by
    intro a x hx
    exact (congrArg Prod.fst (Option.some.inj hx)).symm
  have main : (∀ p ∈ st'.points, p.vector.length = st'.vector_size)
      ∧ st'.vector_size = st.vector_size := by
    unfold upload_document at h
    split at h
    · cases hfst _ _ h; exact ⟨hinv, rfl⟩
    · split at h
      · cases hfst _ _ h; exact ⟨hinv, rfl⟩
      · split at h
        · exact absurd h (by simp)
        · cases hfst _ _ h; exact ⟨hinv, rfl⟩
        · rename_i chunks_data
          split at h
          · cases hfst _ _ h; exact ⟨hinv, rfl⟩
          · rename_i st2 hsave
            cases hfst _ _ h
            have := savePoints_inv st _ st' hsave hinv
            exact ⟨this.2, this.1⟩
  exact ⟨main.1, main.2, rfl, rfl⟩

/-- The document metadata produced by the witness upload. -/
def witnessUploadMeta : DocumentModel :=
  { doc_id := ['d'], user_id := ['u'], filename := ['a', '.', 't', 'x', 't'],
    file_type := ['.', 't', 'x', 't'], chunks_count := 1, created_at := ['t'] }

/-- The payload produced by the witness upload. -/
def witnessUploadPayload : VectorPayload :=
  { doc_id := ['d'], user_id := ['u'], chunk_text := ['h', 'i'],
    chunk_index := 0, filename := ['a', '.', 't', 'x', 't'],
    file_type := ['.', 't', 'x', 't'], created_at := ['t'],
    doc_metadata := some witnessUploadMeta }

/-- The store state after the witness upload. -/
def witnessUploadState : QdrantState :=
  { vector_size := 3,
    points := [{ id := ['d', '#', '0'], vector := [0, 0, 0],
                 payload := witnessUploadPayload }] }

/-- The response of the witness upload. -/
def witnessUploadResp : UploadResponse :=
  { doc_id := ['d'], filename := ['a', '.', 't', 'x', 't'],
    file_type := ['.', 't', 'x', 't'], chunks_count := 1 }

/-- Witness for C7: a successful one-chunk upload into a fresh
3-dimensional collection keeps every stored vector at dimension 3. -/
theorem upload_preserves_vector_size_witness :
    (∀ p ∈ witnessUploadState.points, p.vector.length = witnessUploadState.vector_size)
    ∧ witnessUploadState.vector_size = (initialCollection 3).vector_size
    ∧ (initialCollection 3).vector_size = 3
    ∧ (initialCollection 3).points = [] :=
  upload_preserves_vector_size 2 1 3 (initialCollection 3) ['d'] ['u'] ['t']
    (some ['a', '.', 't', 'x', 't']) (.ok ['h', 'i'])
    (fun ts => .ok (ts.map (fun _ => [0, 0, 0])))
    witnessUploadState (.ok witnessUploadResp)
    (by simp [initialCollection]) rfl

/-- Every point a query returns is a stored point matching the filter. -/
theorem qdrantQuery_subset (st : QdrantState) (f : QFilter) (top_k : Nat)
    (score : PointStruct → Int) (p : PointStruct)
    (hp : p ∈ qdrantQuery st f top_k score) :
    p ∈ st.points ∧ matchesFilter f p.payload = true := by
  unfold qdrantQuery at hp
  have h1 := List.mem_of_mem_take hp
  have h2 := (List.perm_insertionSort
    (fun p q => score q ≤ score p)
    (st.points.filter (fun p => matchesFilter f p.payload))).mem_iff.mp h1
  have h3 := List.mem_filter.mp h2
  exact ⟨h3.1, h3.2⟩

/-- C3: user scoping.  Every point `upload_document` constructs carries the
uploading user's id, the generated document id, its zero-based position in
the chunk sequence, and a full copy of the parent document's metadata; a
successful upload is exactly a save of those built points; every search
result comes from a stored point owned by the searching user; and a
deletion only ever removes points carrying both the given document id and
the requesting user's id. -/
theorem user_scoping (size overlap : Nat) (st : QdrantState)
    (doc_id user_id created_at fname : Str) (hu : user_id ≠ [])
    (extract : Except PyExc Str) (embedBatch : List Str → Except Unit (List Emb))
    (query : Str) (top_k : Nat) (embed : Str → Except Unit Emb)
    (score : PointStruct → Int) :
    (∀ (chunks_data : List (Str × Emb)) (j : Nat)
        (hj : j < (buildPoints doc_id user_id fname (extLower fname)
          created_at chunks_data).length),
        ((buildPoints doc_id user_id fname (extLower fname)
            created_at chunks_data).get ⟨j, hj⟩).payload.user_id = user_id
        ∧ ((buildPoints doc_id user_id fname (extLower fname)
            created_at chunks_data).get ⟨j, hj⟩).payload.doc_id = doc_id
        ∧ ((buildPoints doc_id user_id fname (extLower fname)
            created_at chunks_data).get ⟨j, hj⟩).payload.chunk_index = j
        ∧ ((buildPoints doc_id user_id fname (extLower fname)
            created_at chunks_data).get ⟨j, hj⟩).payload.doc_metadata
          = some { doc_id := doc_id, user_id := user_id, filename := fname,
                   file_type := extLower fname,
                   chunks_count := chunks_data.length,
                   created_at := created_at })
    ∧ (∀ (st' : QdrantState) (resp : UploadResponse),
        upload_document size overlap st doc_id user_id created_at (some fname)
            extract embedBatch = some (st', .ok resp) →
        ∃ chunks_data,
          processDocument size overlap extract embedBatch = some (.ok chunks_data)
          ∧ savePoints st (buildPoints doc_id user_id fname (extLower fname)
              created_at chunks_data) = .ok st')
    ∧ (∀ results,
        search_user_documents st query top_k user_id embed score = .ok results →
        ∀ r ∈ results, ∃ p, p ∈ st.points ∧ p.payload.user_id = user_id
          ∧ r.doc_id = p.payload.doc_id ∧ r.chunk_text = p.payload.chunk_text
          ∧ r.chunk_index = p.payload.chunk_index)
    ∧ (∀ p ∈ st.points, p ∉ (delete_user_document st doc_id user_id).1.points →
        p.payload.doc_id = doc_id ∧ p.payload.user_id = user_id) := by
  refine ⟨?_, ?_, ?_, ?_⟩
  · intro chunks_data j hj
    have hlen : j < chunks_data.enum.length := by
      simpa [buildPoints] using hj
    simp [buildPoints, List.get_eq_getElem, List.getElem_map, List.getElem_enum]
  · intro st' resp h
    unfold upload_document at h
    dsimp only at h
    by_cases hext : extLower fname ∉ allowedExtensions
    · rw [if_pos hext] at h
      exact absurd (congrArg Prod.snd (Option.some.inj h)) (by simp)
    · rw [if_neg hext] at h
      rcases hproc : processDocument size overlap extract embedBatch with _ | pr
      · rw [hproc] at h
        exact absurd h (by simp)
      · rcases pr with e | chunks_data
        · rw [hproc] at h
          exact absurd (congrArg Prod.snd (Option.some.inj h)) (by simp)
        · rw [hproc] at h
          dsimp only at h
          rcases hsave : savePoints st (buildPoints doc_id user_id fname
              (extLower fname) created_at chunks_data) with e | st2
          · rw [hsave] at h
            exact absurd (congrArg Prod.snd (Option.some.inj h)) (by simp)
          · rw [hsave] at h
            have hinj := Option.some.inj h
            rw [Prod.mk.injEq] at hinj
            obtain ⟨rfl, -⟩ := hinj
            exact ⟨chunks_data, rfl, hsave⟩
  · intro results h r hr
    unfold search_user_documents at h
    split at h
    · exact absurd h (by simp)
    · split at h
      · exact absurd h (by simp)
      · rename_i qv hqv
        obtain rfl := Except.ok.inj h
        obtain ⟨p, hp, rfl⟩ := List.mem_map.mp hr
        have hsub := qdrantQuery_subset st (searchFilter user_id) top_k score p hp
        refine ⟨p, hsub.1, ?_, rfl, rfl, rfl⟩
        have := hsub.2
        simpa [matchesFilter, searchFilter, matchesCond] using this
  · intro p hp hnot
    by_cases hchunks : getPointsByDocId st doc_id user_id = []
    · rw [show (delete_user_document st doc_id user_id).1 = st from by
        simp [delete_user_document, hchunks]] at hnot
      exact absurd hp hnot
    · rw [show (delete_user_document st doc_id user_id).1
          = deletePointsByDocId st doc_id user_id from by
        simp [delete_user_document, hchunks]] at hnot
      simp only [deletePointsByDocId] at hnot
      have hkeep : ¬ (!(matchesFilter (docFilter doc_id user_id) p.payload)) = true := by
        intro hk
        exact hnot (List.mem_filter.mpr ⟨hp, hk⟩)
      have hmatch : matchesFilter (docFilter doc_id user_id) p.payload = true := by
        rcases hb : matchesFilter (docFilter doc_id user_id) p.payload with _ | _
        · exact absurd (by simp [hb]) hkeep
        · rfl
      simpa [matchesFilter, docFilter, if_neg hu, matchesCond] using hmatch

/-- Witness for C3: the first built point of a one-chunk upload carries the
user id and chunk index 0. -/
theorem user_scoping_witness :
    ((buildPoints ['d'] ['u'] ['a', '.', 't', 'x', 't']
        (extLower ['a', '.', 't', 'x', 't']) ['t']
        [(['h', 'i'], [0])]).get ⟨0, by decide⟩).payload.user_id = ['u']
    ∧ ((buildPoints ['d'] ['u'] ['a', '.', 't', 'x', 't']
        (extLower ['a', '.', 't', 'x', 't']) ['t']
        [(['h', 'i'], [0])]).get ⟨0, by decide⟩).payload.chunk_index = 0 := by
  have happ := user_scoping 2 1 (initialCollection 1) ['d'] ['u'] ['t']
    ['a', '.', 't', 'x', 't'] (by decide) (.ok ['h', 'i'])
    (fun ts => .ok (ts.map (fun _ => [0]))) ['q'] 5 (fun _ => .ok [0])
    (fun _ => 0)
  have h1 := happ.1 [(['h', 'i'], [0])] 0 (by decide)
  exact ⟨h1.1, h1.2.2.1⟩
